import Mathlib

/-!
Shallow embedding of the `cupi_shift` crate (src/src/lib.rs): a driver for
daisy-chained shift registers controlled through three GPIO lines
(data, latch, clock).

The GPIO layer (`cupi`) is external: a line drive either succeeds or fails
(`PinOutput::high()/low()` return a `Result`, unwrapped by the crate).  We
model the hardware boundary as the *trace* of line-drive operations a call
emits, in order; a fallible run of that trace (for failure-propagation
claims) threads an oracle deciding each drive's outcome.

Machine integers: `ShiftRegister.data` is a Rust `usize` (64-bit) and
`pins` a `u8`; both are modelled as `Nat`.  The only operation where the
word width matters is `1usize << pin`, which in Rust is an arithmetic
overflow for `pin >= 64` (a panic under overflow checking); we model that
panic as `Option.none`.  `!(1 << pin)` is the 64-bit complement,
modelled as `(2^64 - 1) ^^^ (1 <<< pin)`.
-/

set_option maxRecDepth 8192

namespace CupiShift

/-- The three GPIO lines owned by the `Shifter` (fields `data`, `latch`,
`clock` of `struct Shifter`, each a `cupi::PinOutput`). -/
inductive Line where
  | data
  | latch
  | clock
deriving DecidableEq

/-- A digital level driven onto a line (`PinOutput::low()` / `::high()`). -/
inductive Level where
  | low
  | high
deriving DecidableEq

/-- One line-drive operation, e.g. `self.clock.low()` is `(Line.clock, Level.low)`. -/
abbrev Drive := Line × Level

/-- `struct ShiftRegister { data: usize, pins: u8 }`. -/
structure ShiftRegister where
  data : Nat
  pins : Nat
deriving DecidableEq

/-- `ShiftRegister::set`: replaces the state outright, no masking. -/
def ShiftRegister.set (sr : ShiftRegister) (data : Nat) : ShiftRegister :=
  { sr with data := data }

/-- The in-memory state of `struct Shifter`: the chain of registers
(`shift_registers: LinkedList<ShiftRegister>`, kept in insertion order)
and the polarity flag (`invert: bool`).  The three `PinOutput` handles are
the external boundary and are represented by the traces the operations
emit. -/
structure Shifter where
  shift_registers : List ShiftRegister
  invert : Bool
deriving DecidableEq

/-- `Shifter::new`: empty chain, `invert = false` (line acquisition is the
external GPIO layer's concern). -/
def Shifter.new : Shifter :=
  { shift_registers := [], invert := false }

/-- `Shifter::add`: pushes a fresh register with `data = 0` onto the back of
the chain and returns `len - 1`. -/
def Shifter.add (s : Shifter) (pins : Nat) : Shifter × Nat :=
  let regs := s.shift_registers ++ [{ data := 0, pins := pins }]
  ({ s with shift_registers := regs }, regs.length - 1)

/-- The `for (i, sr) in ... .enumerate()` / `if i == sr_index ... break` loop
of `Shifter::set`: replace the state of the register at `sr_index`, leaving
the list unchanged when the index is out of range. -/
def setAt : List ShiftRegister → Nat → Nat → List ShiftRegister
  | [], _, _ => []
  | sr :: rest, 0, d => sr.set d :: rest
  | sr :: rest, i + 1, d => sr :: setAt rest i d

/-- The data level the body of `Shifter::apply` drives for bit `n` of a
register holding `data`: the two `match sr.data >> n & 1` expressions,
selected on `self.invert`. -/
def bitDrive (invert : Bool) (data n : Nat) : Drive :=
  if invert then
    match data >>> n &&& 1 with
    | 1 => (Line.data, Level.low)
    | _ => (Line.data, Level.high)
  else
    match data >>> n &&& 1 with
    | 0 => (Line.data, Level.low)
    | _ => (Line.data, Level.high)

/-- The inner `for n in 0..sr.pins` loop of `Shifter::apply` on its
non-panicking path: for each bit, clock low, data drive, clock high.  The
shift `sr.data >> n` overflows the 64-bit word for `n >= 64`, so this
trace is the program's output exactly when `sr.pins <= 64`; the checked
model `srTraceChecked` below accounts for the panic of wider registers. -/
def srTrace (invert : Bool) (sr : ShiftRegister) : List Drive :=
  (List.range sr.pins).flatMap fun n =>
    [(Line.clock, Level.low), bitDrive invert sr.data n, (Line.clock, Level.high)]

/-- `Shifter::apply` as the sequence of line drives it performs when no
drive fails and no shift overflows: latch low, every register's bits in
insertion order, latch high.  Exact whenever every register has at most 64
pins; `Shifter.applyTraceChecked` is the panic-aware model. -/
def Shifter.applyTrace (s : Shifter) : List Drive :=
  ((Line.latch, Level.low) :: s.shift_registers.flatMap (srTrace s.invert))
    ++ [(Line.latch, Level.high)]

/-- `Shifter::apply` as a state transformer: the method takes `&mut self`
but only reads its fields (it assigns to none of them), so the post-call
state is the pre-call state; the emitted drives are `applyTrace`. -/
def Shifter.apply (s : Shifter) : Shifter × List Drive :=
  (s, s.applyTrace)

/-- `Shifter::set`: replace the register's state at `sr_index` (silently a
no-op on the chain when out of range), then `if apply { self.apply() }`. -/
def Shifter.set (s : Shifter) (sr_index data : Nat) (apply : Bool) :
    Shifter × List Drive :=
  let s2 : Shifter := { s with shift_registers := setAt s.shift_registers sr_index data }
  (s2, if apply then s2.applyTrace else [])

/-- The locate-and-update loop of `Shifter::set_pin_high`: at the matching
index the new state is `sr.data | 1 << pin`; `1usize << pin` overflows for
`pin >= 64` (`none` = the panic of the checked shift).  Out-of-range
indices never evaluate the shift and are a silent no-op. -/
def setPinHighAt : List ShiftRegister → Nat → Nat → Option (List ShiftRegister)
  | [], _, _ => some []
  | sr :: rest, 0, pin =>
    if pin < 64 then some (sr.set (sr.data ||| 1 <<< pin) :: rest) else none
  | sr :: rest, i + 1, pin => (setPinHighAt rest i pin).map (sr :: ·)

/-- The locate-and-update loop of `Shifter::set_pin_low`: the new state is
`sr.data & !(1 << pin)`, the complement taken at 64 bits; the shift again
panics for `pin >= 64`. -/
def setPinLowAt : List ShiftRegister → Nat → Nat → Option (List ShiftRegister)
  | [], _, _ => some []
  | sr :: rest, 0, pin =>
    if pin < 64 then
      some (sr.set (sr.data &&& ((2 ^ 64 - 1) ^^^ 1 <<< pin)) :: rest)
    else none
  | sr :: rest, i + 1, pin => (setPinLowAt rest i pin).map (sr :: ·)

/-- `Shifter::set_pin_high`; `none` models the panic of the overflowing
shift, otherwise the updated state and the emitted drives. -/
def Shifter.set_pin_high (s : Shifter) (sr_index pin : Nat) (apply : Bool) :
    Option (Shifter × List Drive) :=
  (setPinHighAt s.shift_registers sr_index pin).map fun regs =>
    let s2 : Shifter := { s with shift_registers := regs }
    (s2, if apply then s2.applyTrace else [])

/-- `Shifter::set_pin_low`; same shape as `set_pin_high`. -/
def Shifter.set_pin_low (s : Shifter) (sr_index pin : Nat) (apply : Bool) :
    Option (Shifter × List Drive) :=
  (setPinLowAt s.shift_registers sr_index pin).map fun regs =>
    let s2 : Shifter := { s with shift_registers := regs }
    (s2, if apply then s2.applyTrace else [])

/-- `Shifter::invert` (named `doInvert` because the Lean structure field
already carries the source name `invert`): toggles the flag via the
source's two-arm `match`, touching nothing else. -/
def Shifter.doInvert (s : Shifter) : Shifter :=
  match s.invert with
  | true => { s with invert := false }
  | false => { s with invert := true }

/-- Fallible execution of a drive sequence: the oracle says whether the
`k`-th drive attempt succeeds (`self.latch.low().unwrap()` etc.).  Returns
the drives actually performed and whether the run completed; on the first
failure it stops at once — nothing further is attempted, nothing already
driven is revisited. -/
def runDrives (oracle : Nat → Bool) : Nat → List Drive → List Drive × Bool
  | _, [] => ([], true)
  | k, d :: ds =>
    if oracle k then
      let r := runDrives oracle (k + 1) ds
      (d :: r.1, r.2)
    else ([], false)

/-- `Shifter::apply` under a fallible GPIO layer: the drives it attempts
are `applyTrace` in order (each `unwrap` either continues or aborts, so the
attempted sequence does not depend on outcomes), executed by `runDrives`. -/
def Shifter.applyRun (s : Shifter) (oracle : Nat → Bool) : List Drive × Bool :=
  runDrives oracle 0 s.applyTrace

/-- The raw bit value `(state >> n) & 1` of the spec's serialization step. -/
def rawBit (data n : Nat) : Nat := data >>> n &&& 1

/-- The spec's effective level: the raw bit, complemented iff
`invertPolarity`. -/
def effectiveBit (invert : Bool) (data n : Nat) : Nat :=
  if invert then 1 - rawBit data n else rawBit data n

/-- High for an effective 1, low for an effective 0. -/
def levelOfBit (b : Nat) : Level :=
  if b = 1 then Level.high else Level.low

/-- The data-line levels of a trace, in order (the levels captured by the
rising clock edges, plus nothing else since only bit drives touch the data
line). -/
def dataLevels (tr : List Drive) : List Level :=
  tr.filterMap fun d => if d.1 = Line.data then some d.2 else none


/-- The `for n in 0..sr.pins` loop of `Shifter::apply` under Rust's
overflow-checked shift semantics (the same convention used for
`1usize << pin` in `set_pin_high`): `sr.data >> n` is an arithmetic
overflow — a panic, modelled as `none` — as soon as the bit index reaches
64, since `data` is a 64-bit `usize`.  On the non-panicking path each bit
contributes clock low, the data drive, clock high, in index order. -/
def bitsTraceChecked (invert : Bool) (data : Nat) : List Nat → Option (List Drive)
  | [] => some []
  | n :: ns =>
    if n < 64 then
      (bitsTraceChecked invert data ns).map
        ([(Line.clock, Level.low), bitDrive invert data n,
          (Line.clock, Level.high)] ++ ·)
    else none

/-- One register's serialization under the checked shift: panics (`none`)
iff the register is wider than 64 pins, because the loop then reaches
`sr.data >> 64`. -/
def srTraceChecked (invert : Bool) (sr : ShiftRegister) : Option (List Drive) :=
  bitsTraceChecked invert sr.data (List.range sr.pins)

/-- The outer register loop of `Shifter::apply` under the checked shift:
registers in insertion order, stopping at the first panicking register. -/
def chainTraceChecked (invert : Bool) : List ShiftRegister → Option (List Drive)
  | [] => some []
  | sr :: rest =>
    match srTraceChecked invert sr with
    | none => none
    | some tr => (chainTraceChecked invert rest).map (tr ++ ·)

/-- `Shifter::apply` under the overflow-checked shift: `none` when the
chain holds a register wider than 64 pins (the real call panics
mid-serialization and never drives latch high), otherwise the complete
latch-bracketed drive sequence. -/
def Shifter.applyTraceChecked (s : Shifter) : Option (List Drive) :=
  (chainTraceChecked s.invert s.shift_registers).map
    fun body => ((Line.latch, Level.low) :: body) ++ [(Line.latch, Level.high)]

/-! ### Helper lemmas -/

lemma rawBit_le_one (data n : Nat) : rawBit data n ≤ 1 :=
  Nat.and_le_right

lemma bitDrive_eq_spec (invert : Bool) (data n : Nat) :
    bitDrive invert data n = (Line.data, levelOfBit (effectiveBit invert data n)) := by
  have h01 : data >>> n &&& 1 = 0 ∨ data >>> n &&& 1 = 1 :=
    Nat.le_one_iff_eq_zero_or_eq_one.mp (rawBit_le_one data n)
  unfold bitDrive effectiveBit rawBit levelOfBit
  rcases h01 with h | h <;> rw [h] <;> cases invert <;> simp

lemma flatMap_congr {α β : Type} {l : List α} {f g : α → List β}
    (h : ∀ a ∈ l, f a = g a) : l.flatMap f = l.flatMap g := by
  induction l with
  | nil => rfl
  | cons x xs ih =>
    simp only [List.flatMap_cons]
    rw [h x (List.mem_cons_self x xs), ih fun a ha => h a (List.mem_cons_of_mem x ha)]

lemma doInvert_shift_registers (s : Shifter) :
    s.doInvert.shift_registers = s.shift_registers := by
  unfold Shifter.doInvert
  cases h : s.invert <;> rfl

lemma setAt_getElem?_self (regs : List ShiftRegister) (i d : Nat)
    (sr : ShiftRegister) (h : regs[i]? = some sr) :
    (setAt regs i d)[i]? = some (sr.set d) := by
  induction regs generalizing i with
  | nil => simp at h
  | cons hd rest ih =>
    cases i with
    | zero => simp at h; subst h; simp [setAt]
    | succ i => simpa [setAt] using ih i (by simpa using h)

lemma setAt_getElem?_ne (regs : List ShiftRegister) (i d j : Nat) (h : j ≠ i) :
    (setAt regs i d)[j]? = regs[j]? := by
  induction regs generalizing i j with
  | nil => rfl
  | cons hd rest ih =>
    cases i with
    | zero =>
      cases j with
      | zero => exact absurd rfl h
      | succ j => simp [setAt]
    | succ i =>
      cases j with
      | zero => simp [setAt]
      | succ j => simpa [setAt] using ih i j (by omega)

lemma mem_setAt (regs : List ShiftRegister) (i d : Nat) (sr2 : ShiftRegister)
    (h : sr2 ∈ setAt regs i d) :
    sr2 ∈ regs ∨ ∃ sr1, regs[i]? = some sr1 ∧ sr2 = sr1.set d := by
  induction regs generalizing i with
  | nil => simp [setAt] at h
  | cons hd rest ih =>
    cases i with
    | zero =>
      rcases List.mem_cons.mp h with h | h
      · exact Or.inr ⟨hd, by simp, h⟩
      · exact Or.inl (List.mem_cons_of_mem hd h)
    | succ i =>
      rcases List.mem_cons.mp h with h | h
      · exact Or.inl (h ▸ List.mem_cons_self hd rest)
      · rcases ih i h with h | ⟨sr1, h1, h2⟩
        · exact Or.inl (List.mem_cons_of_mem hd h)
        · exact Or.inr ⟨sr1, by simpa using h1, h2⟩

lemma setPinHighAt_oob (regs : List ShiftRegister) (i pin : Nat)
    (h : regs.length ≤ i) : setPinHighAt regs i pin = some regs := by
  induction regs generalizing i with
  | nil => rfl
  | cons hd rest ih =>
    cases i with
    | zero => simp at h
    | succ i => simp only [setPinHighAt]; rw [ih i (by simpa using h)]; rfl

lemma setPinHighAt_eq (regs : List ShiftRegister) (i pin : Nat)
    (sr : ShiftRegister) (h : regs[i]? = some sr) (hp : pin < 64) :
    setPinHighAt regs i pin = some (setAt regs i (sr.data ||| 1 <<< pin)) := by
  induction regs generalizing i with
  | nil => simp at h
  | cons hd rest ih =>
    cases i with
    | zero =>
      simp at h
      subst h
      simp [setPinHighAt, setAt, hp]
    | succ i =>
      simp only [setPinHighAt, setAt]
      rw [ih i (by simpa using h)]
      rfl

lemma setPinHighAt_none (regs : List ShiftRegister) (i pin : Nat)
    (sr : ShiftRegister) (h : regs[i]? = some sr) (hp : 64 ≤ pin) :
    setPinHighAt regs i pin = none := by
  induction regs generalizing i with
  | nil => simp at h
  | cons hd rest ih =>
    cases i with
    | zero => simp [setPinHighAt, Nat.not_lt.mpr hp]
    | succ i =>
      simp only [setPinHighAt]
      rw [ih i (by simpa using h)]
      rfl

lemma setPinLowAt_oob (regs : List ShiftRegister) (i pin : Nat)
    (h : regs.length ≤ i) : setPinLowAt regs i pin = some regs := by
  induction regs generalizing i with
  | nil => rfl
  | cons hd rest ih =>
    cases i with
    | zero => simp at h
    | succ i => simp only [setPinLowAt]; rw [ih i (by simpa using h)]; rfl

lemma setPinLowAt_eq (regs : List ShiftRegister) (i pin : Nat)
    (sr : ShiftRegister) (h : regs[i]? = some sr) (hp : pin < 64) :
    setPinLowAt regs i pin
      = some (setAt regs i (sr.data &&& ((2 ^ 64 - 1) ^^^ 1 <<< pin))) := by
  induction regs generalizing i with
  | nil => simp at h
  | cons hd rest ih =>
    cases i with
    | zero =>
      simp at h
      subst h
      simp [setPinLowAt, setAt, hp]
    | succ i =>
      simp only [setPinLowAt, setAt]
      rw [ih i (by simpa using h)]
      rfl

lemma setPinLowAt_none (regs : List ShiftRegister) (i pin : Nat)
    (sr : ShiftRegister) (h : regs[i]? = some sr) (hp : 64 ≤ pin) :
    setPinLowAt regs i pin = none := by
  induction regs generalizing i with
  | nil => simp at h
  | cons hd rest ih =>
    cases i with
    | zero => simp [setPinLowAt, Nat.not_lt.mpr hp]
    | succ i =>
      simp only [setPinLowAt]
      rw [ih i (by simpa using h)]
      rfl

lemma rawBit_mod (data p n : Nat) (h : n < p) :
    rawBit (data % 2 ^ p) n = rawBit data n := by
  unfold rawBit
  rw [Nat.and_one_is_mod, Nat.and_one_is_mod, Nat.shiftRight_eq_div_pow,
    Nat.shiftRight_eq_div_pow]
  have hsplit : (2 : Nat) ^ p = 2 ^ n * 2 ^ (p - n) := by
    rw [← pow_add]
    congr 1
    omega
  rw [hsplit, Nat.mod_mul_right_div_self]
  exact Nat.mod_mod_of_dvd (data / 2 ^ n) (dvd_pow_self 2 (by omega))

lemma bitDrive_congr (invert : Bool) (a b n : Nat) (h : rawBit a n = rawBit b n) :
    bitDrive invert a n = bitDrive invert b n := by
  unfold rawBit at h
  unfold bitDrive
  rw [h]

lemma srTrace_no_latch (invert : Bool) (sr : ShiftRegister) (dr : Drive)
    (h : dr ∈ srTrace invert sr) : dr.1 ≠ Line.latch := by
  unfold srTrace at h
  rcases List.mem_flatMap.mp h with ⟨n, _, hmem⟩
  rw [bitDrive_eq_spec] at hmem
  simp only [List.mem_cons, List.not_mem_nil, or_false] at hmem
  rcases hmem with h | h | h <;> subst h <;> simp

lemma runDrives_first_fail (ds : List Drive) (oracle : Nat → Bool) (k0 m : Nat)
    (hall : ∀ j, j < m → oracle (k0 + j) = true) (hfail : oracle (k0 + m) = false)
    (hlen : m < ds.length) :
    runDrives oracle k0 ds = (ds.take m, false) := by
  induction ds generalizing k0 m with
  | nil => simp at hlen
  | cons d ds2 ih =>
    cases m with
    | zero =>
      have h0 : oracle k0 = false := by simpa using hfail
      simp [runDrives, h0]
    | succ m =>
      have h0 : oracle k0 = true := by simpa using hall 0 (Nat.succ_pos m)
      have hall2 : ∀ j, j < m → oracle (k0 + 1 + j) = true := by
        intro j hj
        have := hall (j + 1) (by omega)
        simpa [Nat.add_assoc, Nat.add_comm 1 j] using this
      have hfail2 : oracle (k0 + 1 + m) = false := by
        have : k0 + 1 + m = k0 + (m + 1) := by omega
        rw [this]
        exact hfail
      simp only [runDrives, h0, if_true]
      rw [ih (k0 + 1) m hall2 hfail2 (by simpa using hlen)]
      rfl

lemma bitsTraceChecked_eq (invert : Bool) (data : Nat) (ns : List Nat)
    (h : ∀ n ∈ ns, n < 64) :
    bitsTraceChecked invert data ns
      = some (ns.flatMap fun n =>
          [(Line.clock, Level.low), bitDrive invert data n,
           (Line.clock, Level.high)]) := by
  induction ns with
  | nil => rfl
  | cons n ns ih =>
    simp only [bitsTraceChecked, h n (List.mem_cons_self n ns), if_true]
    rw [ih fun m hm => h m (List.mem_cons_of_mem n hm)]
    rfl

lemma srTraceChecked_eq (invert : Bool) (sr : ShiftRegister)
    (h : sr.pins ≤ 64) :
    srTraceChecked invert sr = some (srTrace invert sr) := by
  unfold srTraceChecked srTrace
  exact bitsTraceChecked_eq invert sr.data (List.range sr.pins)
    fun n hn => Nat.lt_of_lt_of_le (List.mem_range.mp hn) h

lemma chainTraceChecked_eq (invert : Bool) (regs : List ShiftRegister)
    (h : ∀ sr ∈ regs, sr.pins ≤ 64) :
    chainTraceChecked invert regs = some (regs.flatMap (srTrace invert)) := by
  induction regs with
  | nil => rfl
  | cons sr rest ih =>
    simp only [chainTraceChecked,
      srTraceChecked_eq invert sr (h sr (List.mem_cons_self sr rest))]
    rw [ih fun sr2 hm => h sr2 (List.mem_cons_of_mem sr hm)]
    rfl

lemma applyTraceChecked_eq (s : Shifter)
    (h : ∀ sr ∈ s.shift_registers, sr.pins ≤ 64) :
    s.applyTraceChecked = some s.applyTrace := by
  unfold Shifter.applyTraceChecked Shifter.applyTrace
  rw [chainTraceChecked_eq s.invert s.shift_registers h]
  rfl

lemma setAt_pins_le (regs : List ShiftRegister) (i d : Nat)
    (h : ∀ sr ∈ regs, sr.pins ≤ 64) :
    ∀ sr2 ∈ setAt regs i d, sr2.pins ≤ 64 := by
  intro sr2 hm
  rcases mem_setAt regs i d sr2 hm with hm2 | ⟨sr1, hget, heq⟩
  · exact h sr2 hm2
  · subst heq
    exact h sr1 (List.getElem?_mem hget)

/-! ### Claim theorems -/

/-- Claim C1, counterexample: the claim fails for a chain holding a
register wider than the 64-bit word backing `data`.  `add(65)` is
accepted (widths go up to 255), but `apply()` then reaches the
overflowing shift `sr.data >> 64` and panics under the overflow-checked
convention (`none` in the checked model) instead of producing the claimed
latch-bracketed trace. -/
theorem c1_counterexample_oversized_register_panics :
    (Shifter.new.add 65).1.shift_registers = [{ data := 0, pins := 65 }] ∧
    (Shifter.new.add 65).1.applyTraceChecked = none := by
  exact ⟨rfl, by decide⟩

/-- Claim C1, amended: provided every register in the chain has at most 64
pins (a wider register makes `apply` panic at bit 64 — see the
counterexample), `apply()` drives latch low; then for each register in
insertion order and each bit position `n` from `0` to `width - 1` it
drives clock low, drives the data line to the raw bit `(state >> n) & 1`
complemented iff `invertPolarity`, and drives clock high; finally it
drives latch high.  In particular a single 8-pin register holding
`0b10110001` yields data levels `1,0,0,0,1,1,0,1` (bit 0 first) with
`invertPolarity = false`, the exact complement with it `true`, and with
two registers the first-added register's bits are all clocked out before
any bit of the second-added register. -/
theorem c1_amended_apply_serialization_order :
    (∀ s : Shifter, (∀ sr ∈ s.shift_registers, sr.pins ≤ 64) →
      s.applyTraceChecked
        = some (((Line.latch, Level.low) ::
            s.shift_registers.flatMap fun sr =>
              (List.range sr.pins).flatMap fun n =>
                [(Line.clock, Level.low),
                 (Line.data, levelOfBit (effectiveBit s.invert sr.data n)),
                 (Line.clock, Level.high)])
          ++ [(Line.latch, Level.high)])) ∧
    (Shifter.applyTraceChecked ⟨[⟨0b10110001, 8⟩], false⟩).map dataLevels
      = some [Level.high, Level.low, Level.low, Level.low,
         Level.high, Level.high, Level.low, Level.high] ∧
    (Shifter.applyTraceChecked ⟨[⟨0b10110001, 8⟩], true⟩).map dataLevels
      = some [Level.low, Level.high, Level.high, Level.high,
         Level.low, Level.low, Level.high, Level.low] ∧
    (∀ (a b : ShiftRegister) (inv : Bool), a.pins ≤ 64 → b.pins ≤ 64 →
      Shifter.applyTraceChecked ⟨[a, b], inv⟩
        = some (((Line.latch, Level.low) :: (srTrace inv a ++ srTrace inv b))
          ++ [(Line.latch, Level.high)])) := by
  refine ⟨fun s hw => ?_, by decide, by decide, fun a b inv ha hb => ?_⟩
  · rw [applyTraceChecked_eq s hw]
    refine congrArg some ?_
    unfold Shifter.applyTrace
    congr 2
    refine flatMap_congr fun sr _ => ?_
    unfold srTrace
    refine flatMap_congr fun n _ => ?_
    rw [bitDrive_eq_spec]
  · rw [applyTraceChecked_eq ⟨[a, b], inv⟩ ?_]
    · refine congrArg some ?_
      simp [Shifter.applyTrace]
    · intro sr hm
      rcases List.mem_cons.mp hm with h | h
      · exact h ▸ ha
      · rw [List.mem_singleton.mp h]
        exact hb

/-- Witness for the amended C1 at a concrete input: the general conjunct
applied to the single 8-pin register holding `0b10110001`. -/
theorem c1_amended_apply_serialization_order_witness :
    Shifter.applyTraceChecked ⟨[⟨0b10110001, 8⟩], false⟩
      = some (((Line.latch, Level.low) ::
          ([⟨0b10110001, 8⟩] : List ShiftRegister).flatMap fun sr =>
            (List.range sr.pins).flatMap fun n =>
              [(Line.clock, Level.low),
               (Line.data, levelOfBit (effectiveBit false sr.data n)),
               (Line.clock, Level.high)])
        ++ [(Line.latch, Level.high)]) :=
  c1_amended_apply_serialization_order.1 ⟨[⟨0b10110001, 8⟩], false⟩ (by decide)

/-- Claim C5: `invert()` is an involution on the controller state, and a
single call changes nothing but the `invertPolarity` flag (which it
toggles): the chain of registers is untouched. -/
theorem c5_invert_involution :
    ∀ s : Shifter,
      s.doInvert.doInvert = s ∧
      s.doInvert.shift_registers = s.shift_registers ∧
      s.doInvert.invert = !s.invert := by
  intro s
  cases s with
  | mk regs inv => cases inv <;> simp [Shifter.doInvert]

/-- Claim C6: `apply()` never modifies the in-memory state — the register
chain and the `invertPolarity` flag are unchanged — and consequently two
consecutive `apply()` calls with no intervening mutation emit identical
sequences of line drives. -/
theorem c6_apply_preserves_state :
    ∀ s : Shifter,
      s.apply.1 = s ∧
      s.apply.1.shift_registers = s.shift_registers ∧
      s.apply.1.invert = s.invert ∧
      s.apply.2 = s.apply.1.apply.2 :=
  fun _ => ⟨rfl, rfl, rfl, rfl⟩

lemma set_pin_high_regs (s : Shifter) (i p : Nat) (ap : Bool)
    (r : Shifter × List Drive) (h : s.set_pin_high i p ap = some r) :
    ∃ regs2, setPinHighAt s.shift_registers i p = some regs2 ∧
      r.1 = { s with shift_registers := regs2 } := by
  unfold Shifter.set_pin_high at h
  cases hh : setPinHighAt s.shift_registers i p with
  | none => rw [hh] at h; exact absurd h (by simp)
  | some regs2 =>
    rw [hh] at h
    simp only [Option.map_some', Option.some.injEq] at h
    exact ⟨regs2, rfl, by rw [← h]⟩

lemma set_pin_low_regs (s : Shifter) (i p : Nat) (ap : Bool)
    (r : Shifter × List Drive) (h : s.set_pin_low i p ap = some r) :
    ∃ regs2, setPinLowAt s.shift_registers i p = some regs2 ∧
      r.1 = { s with shift_registers := regs2 } := by
  unfold Shifter.set_pin_low at h
  cases hh : setPinLowAt s.shift_registers i p with
  | none => rw [hh] at h; exact absurd h (by simp)
  | some regs2 =>
    rw [hh] at h
    simp only [Option.map_some', Option.some.injEq] at h
    exact ⟨regs2, rfl, by rw [← h]⟩

/-- Controller states reachable through the public operations when every
mutation stays inside the register's declared width: `set` only stores
data whose bits at positions `>= width` are zero, `set_pin_high` only
touches pins below the width, and `set_pin_high`/`set_pin_low` steps are
the non-panicking runs.  (Unrestricted `set` breaks the width invariant —
see the counterexample — so the reachability relation of the amended claim
carries these caller-side conditions.) -/
inductive ReachesMasked : Shifter → Prop where
  | new : ReachesMasked Shifter.new
  | add (s : Shifter) (pins : Nat) :
      ReachesMasked s → ReachesMasked (s.add pins).1
  | set (s : Shifter) (i d : Nat) (ap : Bool) : ReachesMasked s →
      (∀ sr, s.shift_registers[i]? = some sr → d < 2 ^ sr.pins) →
      ReachesMasked (s.set i d ap).1
  | setPinHigh (s : Shifter) (i p : Nat) (ap : Bool)
      (r : Shifter × List Drive) : ReachesMasked s →
      (∀ sr, s.shift_registers[i]? = some sr → p < sr.pins) →
      s.set_pin_high i p ap = some r → ReachesMasked r.1
  | setPinLow (s : Shifter) (i p : Nat) (ap : Bool)
      (r : Shifter × List Drive) : ReachesMasked s →
      s.set_pin_low i p ap = some r → ReachesMasked r.1
  | invertStep (s : Shifter) : ReachesMasked s → ReachesMasked s.doInvert
  | applyStep (s : Shifter) : ReachesMasked s → ReachesMasked s.apply.1

/-- Claim C2, counterexample: the invariant fails on the code as stated.
`Shifter::set` stores `data` verbatim — no masking to `width` bits — so
after `add(8)` and `set(0, 256, false)` the single 8-pin register holds 256,
whose bit 8 (a position `>= width`) is one. -/
theorem c2_counterexample_unmasked_set :
    (((Shifter.new.add 8).1.set 0 256 false).1).shift_registers
      = [{ data := 256, pins := 8 }] ∧
    Nat.testBit 256 8 = true := by
  constructor
  · rfl
  · rfl

/-- Claim C2, amended: as stated the claim fails (`set` stores data
verbatim, without masking — see the counterexample — and `set_pin_high`
can set a bit at a position `>= width`); the invariant does hold at every
state reachable while callers keep `set` data below `2 ^ width` and
`set_pin_high` pins below the width: every register's bits at positions
`>= width` are then zero, i.e. `data < 2 ^ width`. -/
theorem c2_amended_width_invariant :
    ∀ s : Shifter, ReachesMasked s →
      ∀ sr ∈ s.shift_registers, sr.data < 2 ^ sr.pins := by
  intro s hs
  induction hs with
  | new =>
    intro sr h
    simp [Shifter.new] at h
  | add s pins _ ih =>
    intro sr h
    simp only [Shifter.add, List.mem_append, List.mem_singleton] at h
    rcases h with h | h
    · exact ih sr h
    · subst h
      exact Nat.two_pow_pos pins
  | set s i d ap _ hguard ih =>
    intro sr2 h
    have h2 : sr2 ∈ setAt s.shift_registers i d := by
      simpa [Shifter.set] using h
    rcases mem_setAt _ _ _ _ h2 with hm | ⟨sr1, hget, heq⟩
    · exact ih sr2 hm
    · subst heq
      exact hguard sr1 hget
  | setPinHigh s i p ap r _ hguard hsome ih =>
    rcases set_pin_high_regs s i p ap r hsome with ⟨regs2, hAt, hr1⟩
    intro sr2 h
    rw [hr1] at h
    simp only at h
    cases hget : s.shift_registers[i]? with
    | none =>
      have hlen : s.shift_registers.length ≤ i := by
        by_contra hlt
        rw [(s.shift_registers.getElem?_eq_getElem (Nat.lt_of_not_le hlt))] at hget
        exact Option.noConfusion hget
      rw [setPinHighAt_oob _ _ _ hlen] at hAt
      exact ih sr2 ((Option.some.inj hAt) ▸ h)
    | some sr1 =>
      have hp64 : p < 64 := by
        by_contra hp
        rw [setPinHighAt_none _ _ _ _ hget (Nat.not_lt.mp hp)] at hAt
        exact Option.noConfusion hAt
      rw [setPinHighAt_eq _ _ _ _ hget hp64] at hAt
      rcases mem_setAt _ _ _ _ ((Option.some.inj hAt) ▸ h) with hm | ⟨sr0, hget0, heq⟩
      · exact ih sr2 hm
      · have hsr0 : sr0 = sr1 := Option.some.inj (hget0.symm.trans hget)
        subst hsr0
        subst heq
        show sr0.data ||| 1 <<< p < 2 ^ sr0.pins
        rw [Nat.one_shiftLeft]
        exact Nat.or_lt_two_pow (ih sr0 (List.getElem?_mem hget))
          (Nat.pow_lt_pow_right Nat.one_lt_two (hguard sr0 hget))
  | setPinLow s i p ap r _ hsome ih =>
    rcases set_pin_low_regs s i p ap r hsome with ⟨regs2, hAt, hr1⟩
    intro sr2 h
    rw [hr1] at h
    simp only at h
    cases hget : s.shift_registers[i]? with
    | none =>
      have hlen : s.shift_registers.length ≤ i := by
        by_contra hlt
        rw [(s.shift_registers.getElem?_eq_getElem (Nat.lt_of_not_le hlt))] at hget
        exact Option.noConfusion hget
      rw [setPinLowAt_oob _ _ _ hlen] at hAt
      exact ih sr2 ((Option.some.inj hAt) ▸ h)
    | some sr1 =>
      have hp64 : p < 64 := by
        by_contra hp
        rw [setPinLowAt_none _ _ _ _ hget (Nat.not_lt.mp hp)] at hAt
        exact Option.noConfusion hAt
      rw [setPinLowAt_eq _ _ _ _ hget hp64] at hAt
      rcases mem_setAt _ _ _ _ ((Option.some.inj hAt) ▸ h) with hm | ⟨sr0, hget0, heq⟩
      · exact ih sr2 hm
      · have hsr0 : sr0 = sr1 := Option.some.inj (hget0.symm.trans hget)
        subst hsr0
        subst heq
        show sr0.data &&& ((2 ^ 64 - 1) ^^^ 1 <<< p) < 2 ^ sr0.pins
        exact Nat.lt_of_le_of_lt Nat.and_le_left (ih sr0 (List.getElem?_mem hget))
  | invertStep s _ ih =>
    intro sr h
    rw [doInvert_shift_registers] at h
    exact ih sr h
  | applyStep s _ ih =>
    exact ih

/-- Witness for the amended C2: a concrete masked-mutation run — `add(8)`
then `set(0, 5, false)` — after which every register satisfies the width
invariant, obtained from the invariant theorem. -/
theorem c2_amended_width_invariant_witness :
    (((Shifter.new.add 8).1.set 0 5 false).1).shift_registers.all
      (fun sr => decide (sr.data < 2 ^ sr.pins)) = true := by
  rw [List.all_eq_true]
  intro sr hsr
  refine decide_eq_true
    (c2_amended_width_invariant _
      (ReachesMasked.set _ 0 5 false
        (ReachesMasked.add _ 8 ReachesMasked.new) ?_)
      sr hsr)
  intro sr1 h1
  have : sr1 = { data := 0, pins := 8 } := by
    simpa [Shifter.new, Shifter.add] using h1.symm
  rw [this]
  decide

lemma or_testBit_self (d p : Nat) : (d ||| 1 <<< p).testBit p = true := by
  rw [Nat.one_shiftLeft, Nat.testBit_lor, Nat.testBit_two_pow]
  simp

lemma or_testBit_ne (d p q : Nat) (h : q ≠ p) :
    (d ||| 1 <<< p).testBit q = d.testBit q := by
  rw [Nat.one_shiftLeft, Nat.testBit_lor, Nat.testBit_two_pow]
  simp [Ne.symm h]

lemma and_mask_testBit_self (d p : Nat) (hp : p < 64) :
    (d &&& ((2 ^ 64 - 1) ^^^ 1 <<< p)).testBit p = false := by
  rw [Nat.one_shiftLeft, Nat.testBit_land, Nat.testBit_xor,
    Nat.testBit_two_pow_sub_one, Nat.testBit_two_pow]
  simp [hp]

lemma and_mask_testBit_ne (d p q : Nat) (hq : q ≠ p) (hd : d < 2 ^ 64) :
    (d &&& ((2 ^ 64 - 1) ^^^ 1 <<< p)).testBit q = d.testBit q := by
  rw [Nat.one_shiftLeft, Nat.testBit_land, Nat.testBit_xor,
    Nat.testBit_two_pow_sub_one, Nat.testBit_two_pow]
  by_cases h64 : q < 64
  · simp [h64, Ne.symm hq]
  · have hdq : d.testBit q = false := by
      apply Nat.testBit_lt_two_pow
      calc d < 2 ^ 64 := hd
        _ ≤ 2 ^ q := Nat.pow_le_pow_right (by norm_num) (Nat.not_lt.mp h64)
    simp [h64, hdq]

/-- Claim C4, counterexample: the claim fails for a register wider than the
64-bit word backing `data`.  `add(65)` is accepted (widths go up to 255),
pin 64 lies in `[0, width)`, yet `set_pin_high(0, 64, _)` does not set bit
64 — the shift `1usize << 64` overflows and the call panics (`none`), and
likewise `set_pin_low`. -/
theorem c4_counterexample_pin_64_of_width_65 :
    (64 : Nat) < 65 ∧
    (Shifter.new.add 65).1.set_pin_high 0 64 false = none ∧
    (Shifter.new.add 65).1.set_pin_low 0 64 false = none := by
  decide

/-- Claim C4, amended: for every in-range register index and every pin
`p < 64` (hence for every `p` in `[0, width)` whenever `width <= 64`;
pins in `[64, width)` of a wider register instead panic — see the
counterexample), `set_pin_high` sets bit `p` of that register to 1 and
`set_pin_low` clears it to 0, each leaving every other bit of that
register (for `set_pin_low` given `data < 2^64`, as any Rust `usize` is),
every other register, and the polarity flag unchanged. -/
theorem c4_amended_set_pin_bit_semantics :
    ∀ (s : Shifter) (i p : Nat) (ap : Bool) (sr : ShiftRegister),
      s.shift_registers[i]? = some sr → p < 64 →
      (∃ rh, s.set_pin_high i p ap = some rh ∧
        rh.1.shift_registers[i]? = some (sr.set (sr.data ||| 1 <<< p)) ∧
        (sr.data ||| 1 <<< p).testBit p = true ∧
        (∀ q, q ≠ p → (sr.data ||| 1 <<< p).testBit q = sr.data.testBit q) ∧
        (∀ j, j ≠ i → rh.1.shift_registers[j]? = s.shift_registers[j]?) ∧
        rh.1.invert = s.invert) ∧
      (∃ rl, s.set_pin_low i p ap = some rl ∧
        rl.1.shift_registers[i]?
          = some (sr.set (sr.data &&& ((2 ^ 64 - 1) ^^^ 1 <<< p))) ∧
        (sr.data &&& ((2 ^ 64 - 1) ^^^ 1 <<< p)).testBit p = false ∧
        (sr.data < 2 ^ 64 → ∀ q, q ≠ p →
          (sr.data &&& ((2 ^ 64 - 1) ^^^ 1 <<< p)).testBit q
            = sr.data.testBit q) ∧
        (∀ j, j ≠ i → rl.1.shift_registers[j]? = s.shift_registers[j]?) ∧
        rl.1.invert = s.invert) := by
  intro s i p ap sr hget hp
  constructor
  · have hEq : s.set_pin_high i p ap
        = some ({ s with
              shift_registers := setAt s.shift_registers i (sr.data ||| 1 <<< p) },
            if ap then
              Shifter.applyTrace { s with
                shift_registers := setAt s.shift_registers i (sr.data ||| 1 <<< p) }
            else []) := by
      unfold Shifter.set_pin_high
      rw [setPinHighAt_eq _ _ _ _ hget hp]
      rfl
    exact ⟨_, hEq, setAt_getElem?_self _ _ _ _ hget, or_testBit_self _ _,
      fun q hq => or_testBit_ne _ _ _ hq,
      fun j hj => setAt_getElem?_ne _ _ _ _ hj, rfl⟩
  · have hEq : s.set_pin_low i p ap
        = some ({ s with
              shift_registers :=
                setAt s.shift_registers i (sr.data &&& ((2 ^ 64 - 1) ^^^ 1 <<< p)) },
            if ap then
              Shifter.applyTrace { s with
                shift_registers :=
                  setAt s.shift_registers i (sr.data &&& ((2 ^ 64 - 1) ^^^ 1 <<< p)) }
            else []) := by
      unfold Shifter.set_pin_low
      rw [setPinLowAt_eq _ _ _ _ hget hp]
      rfl
    exact ⟨_, hEq, setAt_getElem?_self _ _ _ _ hget, and_mask_testBit_self _ _ hp,
      fun hd q hq => and_mask_testBit_ne _ _ _ hq hd,
      fun j hj => setAt_getElem?_ne _ _ _ _ hj, rfl⟩

/-- Witness for the amended C4 at a concrete input: one 8-pin register
holding 10, pin 1 set high then (independently) low. -/
theorem c4_amended_set_pin_bit_semantics_witness :
    (∃ rh, (Shifter.mk [⟨10, 8⟩] false).set_pin_high 0 1 false = some rh ∧
        rh.1.shift_registers[0]?
          = some (ShiftRegister.set ⟨10, 8⟩ (10 ||| 1 <<< 1)) ∧
        ((10 : Nat) ||| 1 <<< 1).testBit 1 = true ∧
        (∀ q, q ≠ 1 → ((10 : Nat) ||| 1 <<< 1).testBit q = Nat.testBit 10 q) ∧
        (∀ j, j ≠ 0 → rh.1.shift_registers[j]?
            = (Shifter.mk [⟨10, 8⟩] false).shift_registers[j]?) ∧
        rh.1.invert = (Shifter.mk [⟨10, 8⟩] false).invert) ∧
    (∃ rl, (Shifter.mk [⟨10, 8⟩] false).set_pin_low 0 1 false = some rl ∧
        rl.1.shift_registers[0]?
          = some (ShiftRegister.set ⟨10, 8⟩ (10 &&& ((2 ^ 64 - 1) ^^^ 1 <<< 1))) ∧
        ((10 : Nat) &&& ((2 ^ 64 - 1) ^^^ 1 <<< 1)).testBit 1 = false ∧
        ((10 : Nat) < 2 ^ 64 → ∀ q, q ≠ 1 →
          ((10 : Nat) &&& ((2 ^ 64 - 1) ^^^ 1 <<< 1)).testBit q
            = Nat.testBit 10 q) ∧
        (∀ j, j ≠ 0 → rl.1.shift_registers[j]?
            = (Shifter.mk [⟨10, 8⟩] false).shift_registers[j]?) ∧
        rl.1.invert = (Shifter.mk [⟨10, 8⟩] false).invert) :=
  c4_amended_set_pin_bit_semantics (Shifter.mk [⟨10, 8⟩] false) 0 1 false
    ⟨10, 8⟩ rfl (by norm_num)

/-- Claim C10: `set_pin_high`/`set_pin_low` build their mask as
`1usize << pin` over the 64-bit word backing `data`, so they behave as
specified only for `pin < 64`; for any in-range index and `pin >= 64` the
shift overflows and the call panics under overflow checking (`none`)
instead of setting or clearing bit `pin` — even though `add` accepts
widths up to 255 and the `u8` pin argument ranges up to 255. -/
theorem c10_shift_mask_word_width :
    ∀ (s : Shifter) (i p : Nat) (ap : Bool) (sr : ShiftRegister),
      s.shift_registers[i]? = some sr →
      ((p < 64 →
        ∃ rh, s.set_pin_high i p ap = some rh ∧
          rh.1.shift_registers[i]? = some (sr.set (sr.data ||| 1 <<< p))) ∧
       (64 ≤ p →
        s.set_pin_high i p ap = none ∧ s.set_pin_low i p ap = none)) := by
  intro s i p ap sr hget
  constructor
  · intro hp
    have hEq : s.set_pin_high i p ap
        = some ({ s with
              shift_registers := setAt s.shift_registers i (sr.data ||| 1 <<< p) },
            if ap then
              Shifter.applyTrace { s with
                shift_registers := setAt s.shift_registers i (sr.data ||| 1 <<< p) }
            else []) := by
      unfold Shifter.set_pin_high
      rw [setPinHighAt_eq _ _ _ _ hget hp]
      rfl
    exact ⟨_, hEq, setAt_getElem?_self _ _ _ _ hget⟩
  · intro hp
    constructor
    · unfold Shifter.set_pin_high
      rw [setPinHighAt_none _ _ _ _ hget hp]
      rfl
    · unfold Shifter.set_pin_low
      rw [setPinLowAt_none _ _ _ _ hget hp]
      rfl

/-- Witness for C10 at a concrete input: a register declared with the
maximum width 255 and pin 64, where both calls panic. -/
theorem c10_shift_mask_word_width_witness :
    ((64 : Nat) < 64 →
      ∃ rh, (Shifter.new.add 255).1.set_pin_high 0 64 false = some rh ∧
        rh.1.shift_registers[0]?
          = some (ShiftRegister.set ⟨0, 255⟩ (0 ||| 1 <<< 64))) ∧
    ((64 : Nat) ≤ 64 →
      (Shifter.new.add 255).1.set_pin_high 0 64 false = none ∧
      (Shifter.new.add 255).1.set_pin_low 0 64 false = none) :=
  c10_shift_mask_word_width (Shifter.new.add 255).1 0 64 false ⟨0, 255⟩ rfl

lemma set_pin_high_noapply_trace (s : Shifter) (i p : Nat)
    (r : Shifter × List Drive) (h : s.set_pin_high i p false = some r) :
    r.2 = [] := by
  unfold Shifter.set_pin_high at h
  cases hh : setPinHighAt s.shift_registers i p with
  | none => rw [hh] at h; exact absurd h (by simp)
  | some regs2 =>
    rw [hh] at h
    simp only [Option.map_some', Option.some.injEq] at h
    rw [← h]
    simp

lemma set_pin_low_noapply_trace (s : Shifter) (i p : Nat)
    (r : Shifter × List Drive) (h : s.set_pin_low i p false = some r) :
    r.2 = [] := by
  unfold Shifter.set_pin_low at h
  cases hh : setPinLowAt s.shift_registers i p with
  | none => rw [hh] at h; exact absurd h (by simp)
  | some regs2 =>
    rw [hh] at h
    simp only [Option.map_some', Option.some.injEq] at h
    rw [← h]
    simp

/-- Claim C7, counterexample: the "one latch cycle" conclusion fails once
the chain holds a register wider than 64 pins.  After `add(65)` and
`set(0, 1, false)` — which indeed drives nothing — the single subsequent
`apply()` panics at the shift `sr.data >> 64` and never drives latch
high, so no latch-low … latch-high bracket is completed. -/
theorem c7_counterexample_wide_register_apply_panics :
    ((Shifter.new.add 65).1.set 0 1 false).2 = [] ∧
    ((((Shifter.new.add 65).1.set 0 1 false).1).applyTraceChecked = none) := by
  exact ⟨rfl, by decide⟩

/-- Claim C7, amended: with `apply = false`, `set` (and likewise
`set_pin_high` and `set_pin_low`) drives no GPIO line at all — its only
effect is on the addressed register's stored state — and, provided every
register in the chain has at most 64 pins (a wider register makes the
invoked `apply` panic mid-serialization instead — see the
counterexample), the single subsequent `apply()` completes, serializing
the post-mutation chain (every state change since the last `apply` is
reflected) inside one latch-low … latch-high cycle: no latch drive occurs
between the bracketing pair. -/
theorem c7_amended_deferred_apply_one_latch_cycle :
    ∀ (s : Shifter) (i d p : Nat) (rh rl : Shifter × List Drive),
      (∀ sr ∈ s.shift_registers, sr.pins ≤ 64) →
      s.set_pin_high i p false = some rh →
      s.set_pin_low i p false = some rl →
      (s.set i d false).2 = [] ∧ rh.2 = [] ∧ rl.2 = [] ∧
      (∃ body,
        ((s.set i d false).1).applyTraceChecked
          = some (((Line.latch, Level.low) :: body)
              ++ [(Line.latch, Level.high)]) ∧
        (∀ dr ∈ body, dr.1 ≠ Line.latch) ∧
        body = (setAt s.shift_registers i d).flatMap (srTrace s.invert)) := by
  intro s i d p rh rl hw hh hl
  refine ⟨rfl, set_pin_high_noapply_trace s i p rh hh,
    set_pin_low_noapply_trace s i p rl hl,
    (setAt s.shift_registers i d).flatMap (srTrace s.invert), ?_, ?_, rfl⟩
  · rw [applyTraceChecked_eq _
      (fun sr2 hm => setAt_pins_le s.shift_registers i d hw sr2 hm)]
    rfl
  · intro dr hdr
    rcases List.mem_flatMap.mp hdr with ⟨sr, _, hmem⟩
    exact srTrace_no_latch _ _ _ hmem

/-- Witness for the amended C7 at a concrete input: one 8-pin register
holding 3; `set(0, 5, false)`, `set_pin_high(0, 2, false)` (result `7`)
and `set_pin_low(0, 2, false)` (result `3`) all emit no drive, and the
next `apply` completes, serializing the updated state in a single latch
cycle. -/
theorem c7_amended_deferred_apply_one_latch_cycle_witness :
    ((Shifter.mk [⟨3, 8⟩] false).set 0 5 false).2 = [] ∧
    ((Shifter.mk [⟨7, 8⟩] false, ([] : List Drive)) : Shifter × List Drive).2
      = [] ∧
    ((Shifter.mk [⟨3, 8⟩] false, ([] : List Drive)) : Shifter × List Drive).2
      = [] ∧
    (∃ body,
      (((Shifter.mk [⟨3, 8⟩] false).set 0 5 false).1).applyTraceChecked
        = some (((Line.latch, Level.low) :: body)
            ++ [(Line.latch, Level.high)]) ∧
      (∀ dr ∈ body, dr.1 ≠ Line.latch) ∧
      body = (setAt [⟨3, 8⟩] 0 5).flatMap (srTrace false)) :=
  c7_amended_deferred_apply_one_latch_cycle (Shifter.mk [⟨3, 8⟩] false)
    0 5 2 (Shifter.mk [⟨7, 8⟩] false, []) (Shifter.mk [⟨3, 8⟩] false, [])
    (by decide) (by decide) (by decide)

/-- Claim C8: a line-drive failure during `apply` is fatal for that call:
with the first failing drive at position `k` of the serialization
sequence, the run stops there and reports failure — the drives performed
are exactly the `k` preceding ones (no retry, nothing rolled back, nothing
after the failure attempted), and the error surfaces immediately. -/
theorem c8_line_drive_failure_fatal :
    ∀ (s : Shifter) (oracle : Nat → Bool) (k : Nat),
      (∀ j, j < k → oracle j = true) → oracle k = false →
      k < s.applyTrace.length →
      s.applyRun oracle = (s.applyTrace.take k, false) := by
  intro s oracle k hall hfail hlen
  unfold Shifter.applyRun
  exact runDrives_first_fail _ _ 0 k (by simpa using hall) (by simpa using hfail)
    hlen

/-- Witness for C8 at a concrete input: a 2-pin register whose fourth
drive (index 3) fails; exactly the first three drives are performed and
the failure is reported. -/
theorem c8_line_drive_failure_fatal_witness :
    (Shifter.new.add 2).1.applyRun (fun n => decide (n < 3))
      = ((Shifter.new.add 2).1.applyTrace.take 3, false) :=
  c8_line_drive_failure_fatal (Shifter.new.add 2).1 (fun n => decide (n < 3)) 3
    (by decide) (by decide) (by decide)

lemma srTrace_congr (inv : Bool) (a b : ShiftRegister) (hp : a.pins = b.pins)
    (hd : a.data % 2 ^ a.pins = b.data % 2 ^ b.pins) :
    srTrace inv a = srTrace inv b := by
  unfold srTrace
  rw [hp]
  refine flatMap_congr fun n hn => ?_
  have hn2 : n < b.pins := List.mem_range.mp hn
  have hd2 : a.data % 2 ^ b.pins = b.data % 2 ^ b.pins := hp ▸ hd
  have hraw : rawBit a.data n = rawBit b.data n := by
    rw [← rawBit_mod a.data b.pins n hn2, hd2, rawBit_mod b.data b.pins n hn2]
  rw [bitDrive_congr inv a.data b.data n hraw]

lemma flatMap_srTrace_congr (inv : Bool) (xs ys : List ShiftRegister)
    (h : List.Forall₂
      (fun a b : ShiftRegister =>
        a.pins = b.pins ∧ a.data % 2 ^ a.pins = b.data % 2 ^ b.pins) xs ys) :
    xs.flatMap (srTrace inv) = ys.flatMap (srTrace inv) := by
  induction h with
  | nil => rfl
  | cons hab htail ih =>
    simp only [List.flatMap_cons]
    rw [srTrace_congr inv _ _ hab.1 hab.2, ih]

/-- Claim C9: the hardware output of `apply()` depends only on the low
`width` bits of each register's state, the widths and order of the chain,
and the polarity flag: two controller states agreeing on those produce
identical drive sequences — bits stored at positions `>= width` (which
`set` can introduce, storing data verbatim) are never serialized and never
affect any line. -/
theorem c9_output_depends_only_on_masked_state :
    ∀ s t : Shifter, s.invert = t.invert →
      List.Forall₂
        (fun a b : ShiftRegister =>
          a.pins = b.pins ∧ a.data % 2 ^ a.pins = b.data % 2 ^ b.pins)
        s.shift_registers t.shift_registers →
      s.applyTrace = t.applyTrace := by
  intro s t hinv hreg
  unfold Shifter.applyTrace
  rw [hinv, flatMap_srTrace_congr t.invert _ _ hreg]

/-- Witness for C9 at a concrete input: an 8-pin register holding 261
(bit 8 set beyond the width) produces the same drives as one holding
5 = 261 mod 256. -/
theorem c9_output_depends_only_on_masked_state_witness :
    Shifter.applyTrace ⟨[⟨261, 8⟩], false⟩
      = Shifter.applyTrace ⟨[⟨5, 8⟩], false⟩ :=
  c9_output_depends_only_on_masked_state ⟨[⟨261, 8⟩], false⟩ ⟨[⟨5, 8⟩], false⟩
    rfl (List.Forall₂.cons ⟨rfl, by decide⟩ List.Forall₂.nil)

end CupiShift
